import Mathlib

/-!
Formatted-print graph node (`UK2Node_SiriusPrintStringFormatted`).

A shallow embedding of
`Plugins/SiriusStringUtils/Source/SiriusStringUtilsEditor/Private/K2Node_SiriusPrintStringFormatted.cpp`
and the properties of its pin management.

Modelling conventions.

* A `UEdGraphPin*` is an address (`PinAddr`); every pin record carries its own address and the
  node's `Pins` array is a list of pin records.  Pointer comparison is address comparison and
  `Pin->field` is a lookup of the address in `Pins` (`deref`); a failed lookup, like a failed
  `FindPinChecked`, makes the operation return `none`.
* Pins at the far end of a link belong to other nodes (the K2 schema refuses a link between two
  pins of one node), are never written by this file, and are kept by value as `FLinkedPin`.
* Host services that are not part of the repository (the format-template parser, the base-class
  validation and `PinTypeChanged`, the schema predicates, the redirect lookup) are parameters;
  the base-class `AllocateDefaultPins` and `PostReconstructNode`, which do not touch the pin
  array, are the identity.
* `CreatePin` allocates at an address above every pin the node holds (`freshAddr`).
* Calls that only notify the host (`Modify`, `NotifyGraphChanged`, `MarkBlueprintAsModified`,
  `BroadcastChanged`, `MarkPendingKill`) do not change the node state and are left out.
-/

namespace SiriusStringUtils

/-! ## Data model -/

/-- Modelled from the spec: the host name type `FName` (declared by the engine, absent from
src/).  Editor builds keep the spelling a name was made from, so a name is the string it was
built from and `ToString` gives that string back. -/
structure FName where
  ToString : String
  deriving DecidableEq, Repr

/-- The code point of a character with the ASCII capitals mapped to the small letters. -/
def foldCase (c : Char) : Nat :=
  if 65 ≤ c.toNat ∧ c.toNat ≤ 90 then c.toNat + 32 else c.toNat

/-- Modelled from the spec: `operator==` of the host name type, which ignores ASCII letter case
(the comparison `FindPin` performs). -/
def FName.Equals (a b : FName) : Bool :=
  a.ToString.data.map foldCase == b.ToString.data.map foldCase

/-- Modelled from the spec: the host constant `NAME_None`. -/
def NAME_None : FName := ⟨"None"⟩

/-- Modelled from the spec: pin direction `EEdGraphPinDirection`; the third enumerator of the
host enum, `EGPD_MAX`, is a count sentinel that no pin carries. -/
inductive EEdGraphPinDirection where
  | EGPD_Input
  | EGPD_Output
  deriving DecidableEq, Repr

/-- Modelled from the spec: the pin type categories `UEdGraphSchema_K2::PC_*` declared by the
host schema (absent from src/); distinct constants are distinct categories. -/
inductive EPinCategory where
  | PC_Exec | PC_Boolean | PC_Byte | PC_Class | PC_SoftClass | PC_Int | PC_Int64 | PC_Float
  | PC_Name | PC_Delegate | PC_MCDelegate | PC_Object | PC_Interface | PC_SoftObject
  | PC_String | PC_Text | PC_Struct | PC_Wildcard | PC_Enum | PC_FieldPath
  deriving DecidableEq, Repr

/-- Modelled from the spec: container kind of a pin type, `EPinContainerType`. -/
inductive EPinContainerType where
  | None | Array | Set | Map
  deriving DecidableEq, Repr

/-- Modelled from the spec: `FEdGraphTerminalType`, the value type of a map pin. -/
structure FEdGraphTerminalType where
  TerminalCategory : FName := NAME_None
  TerminalSubCategory : FName := NAME_None
  TerminalSubCategoryObject : Option String := none
  deriving DecidableEq, Repr

/-- Modelled from the spec: the pin type descriptor `FEdGraphPinType` with the six components
its constructor takes in `SynchronizeArgumentPinType`; equality is component-wise. -/
structure FEdGraphPinType where
  PinCategory : EPinCategory
  PinSubCategory : FName
  PinSubCategoryObject : Option String
  ContainerType : EPinContainerType
  bIsReference : Bool
  PinValueType : FEdGraphTerminalType
  deriving DecidableEq, Repr

/-- A pointer to a pin of this node. -/
abbrev PinAddr := Nat

/-- Modelled from the spec: a pin of another node, as seen from a link or a connection attempt. -/
structure FLinkedPin where
  Id : Nat
  PinType : FEdGraphPinType
  deriving DecidableEq, Repr

/-- Modelled from the spec: the pin record `UEdGraphPin` (name, direction, type, literal value,
links, advanced flag), with the address it lives at. -/
structure UEdGraphPin where
  Addr : PinAddr
  PinName : FName
  Direction : EEdGraphPinDirection
  PinType : FEdGraphPinType
  DefaultValue : String
  AutogeneratedDefaultValue : String
  LinkedTo : List FLinkedPin
  bAdvancedView : Bool
  deriving DecidableEq, Repr

/-- Modelled from the spec: `ENodeAdvancedPins`, the node's advanced-pin display state. -/
inductive ENodeAdvancedPins where
  | NoPins | Shown | Hidden
  deriving DecidableEq, Repr

/-- Modelled from the spec: the class of the schema `GetSchema()` returns, which
`Cast<const UEdGraphSchema_K2>` inspects. -/
inductive ESchemaClass where
  | K2 | Other
  deriving DecidableEq, Repr

/-- Modelled from the spec: the node state (the class is declared in the header, absent from
src/): the pin array, the argument roster `PinNames`, the cached format pin, and the host facts
the code queries (`AdvancedPinDisplay`, `IsTemplate()`, `GetSchema()`). -/
structure UK2Node_SiriusPrintStringFormatted where
  Pins : List UEdGraphPin
  PinNames : List FName
  CachedFormatPin : Option PinAddr
  AdvancedPinDisplay : ENodeAdvancedPins
  bIsTemplate : Bool
  Schema : Option ESchemaClass
  deriving DecidableEq, Repr

abbrev Node := UK2Node_SiriusPrintStringFormatted

open EEdGraphPinDirection EPinCategory

/-- Modelled from the spec: host constant `UEdGraphSchema_K2::PN_Execute`. -/
def PN_Execute : FName := ⟨"execute"⟩

/-- Modelled from the spec: host constant `UEdGraphSchema_K2::PN_Then`. -/
def PN_Then : FName := ⟨"then"⟩

/-- Modelled from the spec: the text `FLinearColor(0.0f, 0.66f, 1.0f).ToString()` produces (alpha
defaults to one). -/
def LinearColorDefault : String := "(R=0.000000,G=0.660000,B=1.000000,A=1.000000)"

/-! ## Host primitives on the pin array -/

/-- The pin stored at an address, if any. -/
def deref (n : Node) (a : PinAddr) : Option UEdGraphPin :=
  n.Pins.find? (fun p => p.Addr == a)

/-- Apply a write through a pin pointer. -/
def modifyPin (n : Node) (a : PinAddr) (f : UEdGraphPin → UEdGraphPin) : Node :=
  { n with Pins := n.Pins.map (fun p => if p.Addr = a then f p else p) }

/-- An address no pin of the node lives at. -/
def freshAddr (pins : List UEdGraphPin) : PinAddr :=
  (pins.map (fun p => p.Addr)).foldr max 0 + 1

/-- Modelled from the spec: `UEdGraphNode::CreatePin(Direction, Category, [SubCategoryObject,]
Name)`: allocate a pin of the plain type of that category, with no literal, no links and not
advanced, append it to `Pins` and return its pointer. -/
def CreatePin (n : Node) (Dir : EEdGraphPinDirection) (PinCategory : EPinCategory)
    (PinSubCategoryObject : Option String) (PinName : FName) : PinAddr × Node :=
  let a := freshAddr n.Pins
  (a, { n with Pins := n.Pins ++
    [{ Addr := a, PinName := PinName, Direction := Dir,
       PinType := ⟨PinCategory, NAME_None, PinSubCategoryObject, EPinContainerType.None, false, {}⟩,
       DefaultValue := "", AutogeneratedDefaultValue := "", LinkedTo := [],
       bAdvancedView := false }] })

/-- Modelled from the spec: `UEdGraphSchema_K2::SetPinAutogeneratedDefaultValue`: record the
autogenerated literal and reset the pin's literal to it. -/
def SetPinAutogeneratedDefaultValue (n : Node) (Pin : PinAddr) (NewValue : String) : Node :=
  modifyPin n Pin (fun p => { p with AutogeneratedDefaultValue := NewValue, DefaultValue := NewValue })

/-- Modelled from the spec: `UEdGraphNode::FindPin(Name)`: the first pin whose name equals the
given one under the host name comparison. -/
def FindPin (n : Node) (PinName : FName) : Option UEdGraphPin :=
  n.Pins.find? (fun p => p.PinName.Equals PinName)

/-- Modelled from the spec: the base-class `AllocateDefaultPins`, which creates no pin. -/
def Super_AllocateDefaultPins (n : Node) : Node := n

/-- Modelled from the spec: the base-class `PostReconstructNode`, which leaves the pin array and
the pin types as they are. -/
def Super_PostReconstructNode (n : Node) : Node := n

/-! ## The node's operations -/

/-- `AllocateDefaultPins` (source lines 20-59). -/
def AllocateDefaultPins (n : Node) : Node :=
  let n := Super_AllocateDefaultPins n
  let n := if n.AdvancedPinDisplay = ENodeAdvancedPins.NoPins
    then { n with AdvancedPinDisplay := ENodeAdvancedPins.Hidden } else n
  -- Execution pins
  let n := (CreatePin n EGPD_Input PC_Exec none PN_Execute).2
  let n := (CreatePin n EGPD_Output PC_Exec none PN_Then).2
  -- Format pins
  let r := CreatePin n EGPD_Input PC_String none ⟨"In String"⟩
  let n := { r.2 with CachedFormatPin := some r.1 }
  let n := SetPinAutogeneratedDefaultValue n r.1 "Hello"
  let n := n.PinNames.foldl (fun n PinName => (CreatePin n EGPD_Input PC_Wildcard none PinName).2) n
  -- Logging option pins
  let PrintScreenPin := CreatePin n EGPD_Input PC_Boolean none ⟨"Print to Screen"⟩
  let n := modifyPin PrintScreenPin.2 PrintScreenPin.1 (fun p => { p with bAdvancedView := true })
  let n := SetPinAutogeneratedDefaultValue n PrintScreenPin.1 "true"
  let PrintLogPin := CreatePin n EGPD_Input PC_Boolean none ⟨"Print to Log"⟩
  let n := modifyPin PrintLogPin.2 PrintLogPin.1 (fun p => { p with bAdvancedView := true })
  let n := SetPinAutogeneratedDefaultValue n PrintLogPin.1 "true"
  let TextColorPin := CreatePin n EGPD_Input PC_Struct (some "LinearColor") ⟨"Text Color"⟩
  let n := modifyPin TextColorPin.2 TextColorPin.1 (fun p => { p with bAdvancedView := true })
  let n := SetPinAutogeneratedDefaultValue n TextColorPin.1 LinearColorDefault
  let DurationPin := CreatePin n EGPD_Input PC_Float none ⟨"Duration"⟩
  let n := modifyPin DurationPin.2 DurationPin.1 (fun p => { p with bAdvancedView := true })
  SetPinAutogeneratedDefaultValue n DurationPin.1 "2.0"

/-- `GetFormatPin` (source lines 265-272): the cached pointer, filled on first use by
`FindPinChecked("In String")`, which fails when there is no such pin. -/
def GetFormatPin (n : Node) : Option (PinAddr × Node) :=
  match n.CachedFormatPin with
  | some a => some (a, n)
  | none =>
    match FindPin n ⟨"In String"⟩ with
    | some p => some (p.Addr, { n with CachedFormatPin := some p.Addr })
    | none => none

/-- `FindArgumentPin` (source lines 274-286). -/
def FindArgumentPin (n : Node) (InPinName : FName) : Option (Option UEdGraphPin × Node) :=
  match GetFormatPin n with
  | none => none
  | some (FormatPin, n) =>
    some (n.Pins.find? (fun Pin => Pin.Addr != FormatPin && Pin.Direction != EGPD_Output
      && Pin.PinName.ToString == InPinName.ToString), n)

/-- The first loop of `PinDefaultValueChanged` (source lines 101-109): for each parsed name,
create a wildcard input pin unless an argument pin of that name exists, and add the name to the
roster. -/
def createArgumentPins : List String → Node → Option Node
  | [], n => some n
  | Param :: rest, n =>
    let ParamName : FName := ⟨Param⟩
    match FindArgumentPin n ParamName with
    | none => none
    | some (found, n) =>
      let n := if found.isNone then (CreatePin n EGPD_Input PC_Wildcard none ParamName).2 else n
      createArgumentPins rest { n with PinNames := n.PinNames ++ [ParamName] }

/-- The test of the second loop of `PinDefaultValueChanged` (source lines 115-126): a pin is
removed when it is an input pin other than the format pin and no parsed name equals its name. -/
def isDestroyed (FormatPin : PinAddr) (ArgumentParams : List String) (CheckPin : UEdGraphPin) : Bool :=
  CheckPin.Addr != FormatPin && CheckPin.Direction == EGPD_Input
    && !(ArgumentParams.any (fun InPinName => InPinName == CheckPin.PinName.ToString))

/-- `PinDefaultValueChanged` (source lines 89-133); `GetFormatArgumentNames` is the host
format-template parser `FTextFormat::FromString(_).GetFormatArgumentNames`. -/
def PinDefaultValueChanged (GetFormatArgumentNames : String → List String) (n : Node)
    (Pin : PinAddr) : Option Node :=
  match GetFormatPin n with
  | none => none
  | some (FormatPin, n) =>
    if Pin = FormatPin then
      match deref n FormatPin with
      | none => none
      | some fp =>
        if fp.LinkedTo.length = 0 then
          let ArgumentParams := GetFormatArgumentNames fp.DefaultValue
          let n := { n with PinNames := [] }
          match createArgumentPins ArgumentParams n with
          | none => none
          | some n =>
            some { n with Pins := n.Pins.filter (fun CheckPin => !isDestroyed FormatPin ArgumentParams CheckPin) }
        else some n
    else some n

/-- The constant `WildcardPinType` of `SynchronizeArgumentPinType` (source line 296). -/
def WildcardPinType : FEdGraphPinType :=
  ⟨PC_Wildcard, NAME_None, none, EPinContainerType.None, false, {}⟩

/-- `SynchronizeArgumentPinType` (source lines 288-330). -/
def SynchronizeArgumentPinType (n : Node) (Pin : PinAddr) : Option Node :=
  match GetFormatPin n with
  | none => none
  | some (FormatPin, n) =>
    if Pin = FormatPin then some n
    else
      match deref n Pin with
      | none => none
      | some p =>
        if p.Direction = EGPD_Input then
          match p.LinkedTo with
          | [] =>
            -- Ensure wildcard
            if p.PinType ≠ WildcardPinType then
              some (modifyPin n Pin (fun q => { q with PinType := WildcardPinType }))
            else some n
          | ArgumentSourcePin :: _ =>
            -- Take the type of the connected pin
            if p.PinType ≠ ArgumentSourcePin.PinType then
              some (modifyPin n Pin (fun q => { q with PinType := ArgumentSourcePin.PinType }))
            else some n
        else some n

/-- `PinConnectionListChanged` (source lines 81-87). -/
def PinConnectionListChanged (n : Node) (Pin : PinAddr) : Option Node :=
  SynchronizeArgumentPinType n Pin

/-- `PinTypeChanged` (source lines 135-141); `Super_PinTypeChanged` is the base-class handler. -/
def PinTypeChanged (Super_PinTypeChanged : Node → PinAddr → Node) (n : Node) (Pin : PinAddr) :
    Option Node :=
  (SynchronizeArgumentPinType n Pin).map (fun n => Super_PinTypeChanged n Pin)

/-- The loop of `PostReconstructNode` (source lines 256-260) over the pin pointers. -/
def synchronizeAll : List PinAddr → Node → Option Node
  | [], n => some n
  | CurrentPin :: rest, n =>
    match SynchronizeArgumentPinType n CurrentPin with
    | none => none
    | some n => synchronizeAll rest n

/-- `PostReconstructNode` (source lines 247-263). -/
def PostReconstructNode (n : Node) : Option Node :=
  let n := Super_PostReconstructNode n
  if !n.bIsTemplate then
    -- Make sure we're not dealing with a menu node
    if n.Schema.isSome then
      synchronizeAll (n.Pins.map (fun p => p.Addr)) n
    else some n
  else some n

/-- The allow-list test of `IsConnectionDisallowed` (source lines 222-235). -/
def bIsValidType (OtherPinCategory : EPinCategory) : Bool :=
  OtherPinCategory == PC_Int ||
  OtherPinCategory == PC_Int64 ||
  OtherPinCategory == PC_Float ||
  OtherPinCategory == PC_Text ||
  OtherPinCategory == PC_Byte ||
  OtherPinCategory == PC_Boolean ||
  OtherPinCategory == PC_String ||
  OtherPinCategory == PC_Name ||
  OtherPinCategory == PC_Object ||
  OtherPinCategory == PC_Wildcard

/-- The rejection text `Error_InvalidArgumentType` (source line 239). -/
def Error_InvalidArgumentType : String :=
  "Format arguments may only be Byte, Enum, Integer, Float, Text, String, Name, Boolean, Object or Wildcard."

/-- `IsConnectionDisallowed` (source lines 215-245).  `Super_IsConnectionDisallowed` is the host's
default validation; the result is the returned flag with the final content of `OutReason`,
and the node (whose format-pin cache may have been filled). -/
def IsConnectionDisallowed (Super_IsConnectionDisallowed : PinAddr → FLinkedPin → String → Bool × String)
    (n : Node) (MyPin : PinAddr) (OtherPin : FLinkedPin) (OutReason : String) :
    Option ((Bool × String) × Node) :=
  match GetFormatPin n with
  | none => none
  | some (FormatPin, n) =>
    if MyPin = FormatPin then some (Super_IsConnectionDisallowed MyPin OtherPin OutReason, n)
    else
      match deref n MyPin with
      | none => none
      | some p =>
        if p.Direction = EGPD_Input then
          let OtherPinCategory := OtherPin.PinType.PinCategory
          if !bIsValidType OtherPinCategory then
            some ((true, Error_InvalidArgumentType), n)
          else some (Super_IsConnectionDisallowed MyPin OtherPin OutReason, n)
        else some (Super_IsConnectionDisallowed MyPin OtherPin OutReason, n)

/-- Modelled from the spec: `UK2Node::ERedirectType`, the outcome of reconstruction matching. -/
inductive ERedirectType where
  | ERedirectType_None | ERedirectType_Name | ERedirectType_Value | ERedirectType_Custom
  deriving DecidableEq, Repr

open ERedirectType

/-- Modelled from the spec: the host services `DoPinsMatchForReconstruction` calls: the K2
schema's `IsSelfPin` and `ArePinTypesCompatible`, whether the new pin's owning node casts to
`UK2Node`, `GetRedirectPinNames`, and the redirect lookup `ShouldRedirectParam` with its
out-parameter. -/
structure FReconstructionHost where
  IsSelfPin : UEdGraphPin → Bool
  ArePinTypesCompatible : FEdGraphPinType → FEdGraphPinType → Bool
  OwningNodeIsK2 : UEdGraphPin → Bool
  GetRedirectPinNames : UEdGraphPin → List String
  ShouldRedirectParam : List String → ERedirectType × FName

/-- `DoPinsMatchForReconstruction` (source lines 143-185). -/
def DoPinsMatchForReconstruction (H : FReconstructionHost) (n : Node) (NewPin : UEdGraphPin)
    (_NewPinIndex : Int) (OldPin : UEdGraphPin) (_OldPinIndex : Int) : ERedirectType :=
  -- if the pin names do match
  if NewPin.PinName.ToString = OldPin.PinName.ToString then
    -- Make sure we're not dealing with a menu node
    match n.Schema with
    | some Schema =>
      if Schema ≠ ESchemaClass.K2 || H.IsSelfPin NewPin
          || H.ArePinTypesCompatible OldPin.PinType NewPin.PinType then
        ERedirectType_Name
      else ERedirectType_None
    | none => ERedirectType_None
  else
    -- try looking for a redirect if it's a K2 node
    if H.OwningNodeIsK2 NewPin then
      let OldPinNames := H.GetRedirectPinNames OldPin
      let r := H.ShouldRedirectParam OldPinNames
      -- make sure they match
      if r.1 ≠ ERedirectType_None && NewPin.PinName.ToString ≠ r.2.ToString then
        ERedirectType_None
      else r.1
    else ERedirectType_None

/-! ## A reference parser for the examples -/

/-- Modelled from the spec: a reference reading of the host format-template parser, "extracts
ordered interpolation-argument names from a literal string", de-duplicated: the texts between
an opening and the next closing brace, each kept at its first occurrence.  The theorems hold
for every parser; this one instantiates the examples. -/
def scanArgumentNames : List Char → Option (List Char) → List String → List String
  | [], _, acc => acc
  | c :: cs, none, acc =>
    if c = Char.ofNat 123 then scanArgumentNames cs (some []) acc
    else scanArgumentNames cs none acc
  | c :: cs, some cur, acc =>
    if c = Char.ofNat 125 then
      let nm := String.mk cur.reverse
      scanArgumentNames cs none (if nm ∈ acc then acc else acc ++ [nm])
    else scanArgumentNames cs (some (c :: cur)) acc

/-- Modelled from the spec: the reference parser on a literal. -/
def GetFormatArgumentNames (Format : String) : List String :=
  scanArgumentNames Format.data none []

/-- A node with no pins and the given roster, placed in a K2 graph. -/
def emptyNode (roster : List FName) : Node :=
  { Pins := [], PinNames := roster, CachedFormatPin := none,
    AdvancedPinDisplay := ENodeAdvancedPins.NoPins, bIsTemplate := false,
    Schema := some ESchemaClass.K2 }

/-- Write a literal into the pin at an address (the edit the host makes before it calls
`PinDefaultValueChanged`). -/
def setDefaultValue (n : Node) (a : PinAddr) (v : String) : Node :=
  modifyPin n a (fun p => { p with DefaultValue := v })

/-! ## Vocabulary of the statements -/

/-- The format pin's address as `GetFormatPin` resolves it. -/
def FormatPinAddr (n : Node) : Option PinAddr :=
  (GetFormatPin n).map Prod.fst

/-- The format pin's record: `GetFormatPin` followed by the dereference. -/
def FormatPinOf (n : Node) : Option UEdGraphPin :=
  match GetFormatPin n with
  | some (a, n1) => deref n1 a
  | none => none

/-- An argument pin in the sense of the code: an input pin other than the format pin. -/
def isArgumentPin (FormatPin : PinAddr) (p : UEdGraphPin) : Bool :=
  p.Addr != FormatPin && p.Direction == EGPD_Input

/-- The pins of a list that are argument pins with the given name (case-sensitive). -/
def argumentPinsNamed (FormatPin : PinAddr) (pins : List UEdGraphPin) (s : String) :
    List UEdGraphPin :=
  pins.filter (fun p => isArgumentPin FormatPin p && p.PinName.ToString == s)

/-- The plain pin type of a category, as `CreatePin` builds it. -/
def plainType (c : EPinCategory) (obj : Option String) : FEdGraphPinType :=
  ⟨c, NAME_None, obj, EPinContainerType.None, false, {}⟩

/-- The categories a format argument may have (source lines 223-232). -/
def allowedCategories : List EPinCategory :=
  [PC_Int, PC_Int64, PC_Float, PC_Text, PC_Byte, PC_Boolean, PC_String, PC_Name, PC_Object,
   PC_Wildcard]

/-- A freshly allocated node with an empty roster, in a K2 graph. -/
def freshNode : Node := AllocateDefaultPins (emptyNode [])

/-- A freshly allocated node with roster 0, 1 whose format literal reads "Hi {0}". -/
def editedNode : Node :=
  setDefaultValue (AllocateDefaultPins (emptyNode [⟨"0"⟩, ⟨"1"⟩])) 3 "Hi {0}"

/-- The type an argument pin is given: wildcard when it has no links, otherwise the type of
the pin at the far end of its first link. -/
def farEndType (p : UEdGraphPin) : FEdGraphPinType :=
  match p.LinkedTo with
  | [] => WildcardPinType
  | ArgumentSourcePin :: _ => ArgumentSourcePin.PinType

/-- A node with one argument pin `0` at address 4, linked to a string-typed source. -/
def linkedNode : Node :=
  let n := AllocateDefaultPins (emptyNode [⟨"0"⟩])
  modifyPin n 4 (fun p => { p with LinkedTo := [⟨100, plainType PC_String none⟩] })

/-- A node whose argument pin `0` at address 4 still has the string type of a source that
was disconnected. -/
def unlinkedNode : Node :=
  let n := AllocateDefaultPins (emptyNode [⟨"0"⟩])
  modifyPin n 4 (fun p => { p with PinType := plainType PC_String none })

/-- A host with no self pin, in which types are compatible when their categories agree, and
whose redirect table renames `Old` to `0`. -/
def sampleHost : FReconstructionHost :=
  { IsSelfPin := fun _ => false
    ArePinTypesCompatible := fun a b => a.PinCategory == b.PinCategory
    OwningNodeIsK2 := fun _ => true
    GetRedirectPinNames := fun p => [p.PinName.ToString]
    ShouldRedirectParam := fun names =>
      if names = ["Old"] then (ERedirectType_Name, ⟨"0"⟩) else (ERedirectType_None, NAME_None) }

/-- Some argument pin of the list has the given name. -/
def hasArgumentPin (FormatPin : PinAddr) (pins : List UEdGraphPin) (s : String) : Prop :=
  ∃ p ∈ pins, isArgumentPin FormatPin p = true ∧ p.PinName.ToString = s

/-- What the first loop of `PinDefaultValueChanged` appends to a pin list for a parsed list:
input wildcard pins without links at new addresses, of pairwise different names, one for
each parsed name that no argument pin of the list has. -/
def NewArgumentPins (FormatPin : PinAddr) (pins : List UEdGraphPin) (params : List String)
    (created : List UEdGraphPin) : Prop :=
  (∀ p ∈ created, p.Direction = EGPD_Input ∧ p.PinType = WildcardPinType ∧ p.LinkedTo = []
      ∧ ∀ q ∈ pins, q.Addr < p.Addr)
  ∧ (created.map (fun p => p.PinName.ToString)).Nodup
  ∧ ∀ s, s ∈ created.map (fun p => p.PinName.ToString)
      ↔ s ∈ params ∧ ¬ hasArgumentPin FormatPin pins s

/-- The format pin's record with a given literal, as `AllocateDefaultPins` places it. -/
def formatPinWith (literal : String) : UEdGraphPin :=
  ⟨3, ⟨"In String"⟩, EGPD_Input, plainType PC_String none, literal, "Hello", [], false⟩

/-- The argument pin `AllocateDefaultPins` creates for a roster name at an address. -/
def wildcardPin (x : Nat × FName) : UEdGraphPin :=
  ⟨x.1, x.2, EGPD_Input, WildcardPinType, "", "", [], false⟩

/-- The pin list the specification describes for a roster: execution input, execution output,
the format pin `In String` with literal "Hello", one input wildcard pin per roster name in
roster order, then the four advanced option pins with their literals. -/
def specifiedDefaultPins (roster : List FName) : List UEdGraphPin :=
  [⟨1, PN_Execute, EGPD_Input, plainType PC_Exec none, "", "", [], false⟩,
   ⟨2, PN_Then, EGPD_Output, plainType PC_Exec none, "", "", [], false⟩,
   ⟨3, ⟨"In String"⟩, EGPD_Input, plainType PC_String none, "Hello", "Hello", [], false⟩]
  ++ (roster.enumFrom 4).map wildcardPin
  ++ [⟨4 + roster.length, ⟨"Print to Screen"⟩, EGPD_Input, plainType PC_Boolean none,
        "true", "true", [], true⟩,
      ⟨5 + roster.length, ⟨"Print to Log"⟩, EGPD_Input, plainType PC_Boolean none,
        "true", "true", [], true⟩,
      ⟨6 + roster.length, ⟨"Text Color"⟩, EGPD_Input, plainType PC_Struct (some "LinearColor"),
        LinearColorDefault, LinearColorDefault, [], true⟩,
      ⟨7 + roster.length, ⟨"Duration"⟩, EGPD_Input, plainType PC_Float none,
        "2.0", "2.0", [], true⟩]

/-! ## Lemmas on the format pin and on address allocation -/

theorem GetFormatPin_cached {n : Node} {a : PinAddr} (h : n.CachedFormatPin = some a) :
    GetFormatPin n = some (a, n) := by
  simp [GetFormatPin, h]

theorem GetFormatPin_eq {n n1 : Node} {f : PinAddr} (h : GetFormatPin n = some (f, n1)) :
    n1 = { n with CachedFormatPin := some f } := by
  unfold GetFormatPin at h
  cases hc : n.CachedFormatPin with
  | some a =>
    rw [hc] at h
    simp only [Option.some.injEq, Prod.mk.injEq] at h
    obtain ⟨rfl, rfl⟩ := h
    cases n
    simp_all
  | none =>
    rw [hc] at h
    cases hfind : FindPin n ⟨"In String"⟩ with
    | none => rw [hfind] at h; simp at h
    | some p =>
      rw [hfind] at h
      simp only [Option.some.injEq, Prod.mk.injEq] at h
      obtain ⟨rfl, rfl⟩ := h
      rfl

/-- With an empty cache `GetFormatPin` finds the pin named `In String` and caches it. -/
theorem GetFormatPin_finds_In_String :
    (GetFormatPin { freshNode with CachedFormatPin := none }).map
      (fun r => (r.1, r.2.CachedFormatPin)) = some (3, some 3) := by
  decide

theorem deref_addr {n : Node} {a : PinAddr} {p : UEdGraphPin} (h : deref n a = some p) :
    p.Addr = a ∧ p ∈ n.Pins := by
  unfold deref at h
  have h1 := List.find?_some h
  have h2 := List.mem_of_find?_eq_some h
  exact ⟨by simpa using h1, h2⟩

theorem addr_lt_freshAddr {pins : List UEdGraphPin} {p : UEdGraphPin} (h : p ∈ pins) :
    p.Addr < freshAddr pins := by
  unfold freshAddr
  induction pins with
  | nil => cases h
  | cons q qs ih =>
    simp only [List.map_cons, List.foldr_cons]
    rcases List.mem_cons.mp h with rfl | h
    · exact Nat.lt_succ_of_le (le_max_left _ _)
    · exact Nat.lt_succ_of_le (le_trans (Nat.le_of_lt_succ (ih h)) (le_max_right _ _))

theorem FormatPinAddr_some {n : Node} {f : PinAddr} (h : FormatPinAddr n = some f) :
    GetFormatPin n = some (f, { n with CachedFormatPin := some f }) := by
  unfold FormatPinAddr at h
  cases hg : GetFormatPin n with
  | none => rw [hg] at h; simp at h
  | some r =>
    obtain ⟨a, n1⟩ := r
    rw [hg] at h
    simp only [Option.map_some', Option.some.injEq] at h
    subst h
    rw [GetFormatPin_eq hg]

theorem deref_cache (n : Node) (c : Option PinAddr) (a : PinAddr) :
    deref { n with CachedFormatPin := c } a = deref n a := rfl

theorem deref_modifyPin (n : Node) (a b : PinAddr) (g : UEdGraphPin → UEdGraphPin)
    (hg : ∀ p, (g p).Addr = p.Addr) :
    deref (modifyPin n a g) b = (deref n b).map (fun p => if p.Addr = a then g p else p) := by
  unfold deref modifyPin
  simp only [List.find?_map]
  congr 1
  congr 1
  funext q
  simp only [Function.comp]
  split <;> simp [hg]

/-! ## Type synchronisation -/

theorem SynchronizeArgumentPinType_eq (n : Node) (f a : PinAddr) (p : UEdGraphPin)
    (hf : FormatPinAddr n = some f) (hp : deref n a = some p) (ha : a ≠ f)
    (hd : p.Direction = EGPD_Input) :
    SynchronizeArgumentPinType n a =
      some (if p.PinType = farEndType p then { n with CachedFormatPin := some f }
            else modifyPin { n with CachedFormatPin := some f } a
              (fun q => { q with PinType := farEndType p })) := by
  have hg := FormatPinAddr_some hf
  unfold SynchronizeArgumentPinType
  rw [hg]
  simp only [if_neg ha, deref_cache, hp]
  rw [if_pos hd]
  unfold farEndType
  cases p.LinkedTo with
  | nil => by_cases ht : p.PinType = WildcardPinType <;> simp [ht]
  | cons src rest => by_cases ht : p.PinType = src.PinType <;> simp [ht]

/-- C5: for an argument pin (an input pin other than the format pin), whatever its type was,
`SynchronizeArgumentPinType` (and so `PinConnectionListChanged`, and `PinTypeChanged` before it
hands over to the base class) returns a node in which that pin is the same pin except for
its type, which is the wildcard type when the pin has no links and the type of the pin at
the far end of its first link otherwise. -/
theorem SynchronizeArgumentPinType_sets_type (n : Node) (f a : PinAddr) (p : UEdGraphPin)
    (hf : FormatPinAddr n = some f) (hp : deref n a = some p) (ha : a ≠ f)
    (hd : p.Direction = EGPD_Input) :
    ∃ n' p', SynchronizeArgumentPinType n a = some n' ∧
      PinConnectionListChanged n a = some n' ∧
      (∀ S, PinTypeChanged S n a = some (S n' a)) ∧
      deref n' a = some p' ∧
      p' = { p with PinType := p'.PinType } ∧
      (p.LinkedTo = [] → p'.PinType = WildcardPinType) ∧
      (∀ ArgumentSourcePin rest, p.LinkedTo = ArgumentSourcePin :: rest →
        p'.PinType = ArgumentSourcePin.PinType) := by
  have h1 := SynchronizeArgumentPinType_eq n f a p hf hp ha hd
  have h2 : deref (if p.PinType = farEndType p then { n with CachedFormatPin := some f }
            else modifyPin { n with CachedFormatPin := some f } a
              (fun q => { q with PinType := farEndType p })) a
      = some { p with PinType := farEndType p } := by
    by_cases ht : p.PinType = farEndType p
    · rw [if_pos ht, deref_cache, hp, ← ht]
    · rw [if_neg ht, deref_modifyPin, deref_cache, hp]
      · simp [(deref_addr hp).1]
      · intro q
        rfl
  refine ⟨_, _, h1, h1, fun S => by simp [PinTypeChanged, h1], h2, rfl, ?_, ?_⟩
  · intro hl
    simp [farEndType, hl]
  · intro src rest hl
    simp [farEndType, hl]

/-- C5 at a concrete node: connecting a string-typed source makes argument pin `0`
string-typed. -/
theorem SynchronizeArgumentPinType_sets_type_witness :
    (SynchronizeArgumentPinType linkedNode 4).map
        (fun n => (deref n 4).map (fun p => p.PinType)) = some (some (plainType PC_String none)) ∧
    (SynchronizeArgumentPinType unlinkedNode 4).map
        (fun n => (deref n 4).map (fun p => p.PinType)) = some (some WildcardPinType) ∧
    ∃ n' p', SynchronizeArgumentPinType linkedNode 4 = some n' ∧
      PinConnectionListChanged linkedNode 4 = some n' ∧
      (∀ S, PinTypeChanged S linkedNode 4 = some (S n' 4)) ∧
      deref n' 4 = some p' ∧
      p' = { (⟨4, ⟨"0"⟩, EGPD_Input, WildcardPinType, "", "",
              [⟨100, plainType PC_String none⟩], false⟩ : UEdGraphPin) with
             PinType := p'.PinType } ∧
      ((⟨4, ⟨"0"⟩, EGPD_Input, WildcardPinType, "", "",
          [⟨100, plainType PC_String none⟩], false⟩ : UEdGraphPin).LinkedTo = []
        → p'.PinType = WildcardPinType) ∧
      (∀ ArgumentSourcePin rest,
        (⟨4, ⟨"0"⟩, EGPD_Input, WildcardPinType, "", "",
          [⟨100, plainType PC_String none⟩], false⟩ : UEdGraphPin).LinkedTo
            = ArgumentSourcePin :: rest →
        p'.PinType = ArgumentSourcePin.PinType) :=
  ⟨by decide, by decide, SynchronizeArgumentPinType_sets_type linkedNode 3 4
    ⟨4, ⟨"0"⟩, EGPD_Input, WildcardPinType, "", "", [⟨100, plainType PC_String none⟩], false⟩
    (by decide) (by decide) (by decide) rfl⟩

/-! ## Connection validation -/

theorem bIsValidType_iff (c : EPinCategory) : bIsValidType c = true ↔ c ∈ allowedCategories := by
  cases c <;> decide

theorem IsConnectionDisallowed_eq (S : PinAddr → FLinkedPin → String → Bool × String)
    (n : Node) (f a : PinAddr) (p : UEdGraphPin) (o : FLinkedPin) (r : String)
    (hf : FormatPinAddr n = some f) (hp : deref n a = some p) (ha : a ≠ f)
    (hd : p.Direction = EGPD_Input) :
    (IsConnectionDisallowed S n a o r).map Prod.fst =
      some (if bIsValidType o.PinType.PinCategory then S a o r
            else (true, Error_InvalidArgumentType)) := by
  have hg := FormatPinAddr_some hf
  unfold IsConnectionDisallowed
  rw [hg]
  simp only [if_neg ha, deref_cache, hp]
  rw [if_pos hd]
  cases bIsValidType o.PinType.PinCategory <;> simp

/-- C7: for an argument pin (an input pin other than the format pin) and any source pin,
`IsConnectionDisallowed` returns true with the fixed, non-empty reason whatever the host's
default validation says exactly when the source's category is outside int, int64, float,
text, byte, boolean, string, name, object, wildcard; for a category in the list the result
is the host's default validation result. -/
theorem IsConnectionDisallowed_argument_pin (n : Node) (f a : PinAddr) (p : UEdGraphPin)
    (o : FLinkedPin) (hf : FormatPinAddr n = some f) (hp : deref n a = some p) (ha : a ≠ f)
    (hd : p.Direction = EGPD_Input) :
    Error_InvalidArgumentType ≠ "" ∧
    ((∀ S r, (IsConnectionDisallowed S n a o r).map Prod.fst
        = some (true, Error_InvalidArgumentType))
      ↔ o.PinType.PinCategory ∉ allowedCategories) ∧
    (o.PinType.PinCategory ∈ allowedCategories →
      ∀ S r, (IsConnectionDisallowed S n a o r).map Prod.fst = some (S a o r)) := by
  refine ⟨by decide, ⟨?_, ?_⟩, ?_⟩
  · intro h hmem
    have h1 := h (fun _ _ _ => (false, "")) ""
    rw [IsConnectionDisallowed_eq _ n f a p o _ hf hp ha hd,
      if_pos ((bIsValidType_iff _).mpr hmem)] at h1
    simp at h1
  · intro hmem S r
    rw [IsConnectionDisallowed_eq S n f a p o r hf hp ha hd]
    have : bIsValidType o.PinType.PinCategory = false := by
      cases hb : bIsValidType o.PinType.PinCategory with
      | false => rfl
      | true => exact absurd ((bIsValidType_iff _).mp hb) hmem
    simp [this]
  · intro hmem S r
    rw [IsConnectionDisallowed_eq S n f a p o r hf hp ha hd,
      if_pos ((bIsValidType_iff _).mpr hmem)]

/-- C7 at a concrete node: on argument pin `0` an object-typed source gets the host's
verdict. -/
theorem IsConnectionDisallowed_argument_pin_witness :
    Error_InvalidArgumentType ≠ "" ∧
    ((∀ S r, (IsConnectionDisallowed S linkedNode 4 ⟨7, plainType PC_Object none⟩ r).map Prod.fst
        = some (true, Error_InvalidArgumentType))
      ↔ PC_Object ∉ allowedCategories) ∧
    (PC_Object ∈ allowedCategories →
      ∀ S r, (IsConnectionDisallowed S linkedNode 4 ⟨7, plainType PC_Object none⟩ r).map Prod.fst
        = some (S 4 ⟨7, plainType PC_Object none⟩ r)) :=
  IsConnectionDisallowed_argument_pin linkedNode 3 4
    ⟨4, ⟨"0"⟩, EGPD_Input, WildcardPinType, "", "", [⟨100, plainType PC_String none⟩], false⟩
    ⟨7, plainType PC_Object none⟩ (by decide) (by decide) (by decide) rfl

/-- C8: on the fixed input pins the node applies its own allow-list instead of the host's
default validation: on a freshly allocated node, whatever the host's default validation answers,
an execution-typed source is refused on the execution-input pin (address 1) and a `LinearColor`
struct source is refused on `Text Color` (address 6), each with the node's own reason. -/
theorem IsConnectionDisallowed_rejects_on_fixed_pins :
    (deref freshNode 1).map (fun p => (p.PinName, p.PinType)) = some (PN_Execute, plainType PC_Exec none) ∧
    (deref freshNode 6).map (fun p => (p.PinName, p.PinType))
      = some (⟨"Text Color"⟩, plainType PC_Struct (some "LinearColor")) ∧
    (∀ S r, (IsConnectionDisallowed S freshNode 1 ⟨50, plainType PC_Exec none⟩ r).map Prod.fst
      = some (true, Error_InvalidArgumentType)) ∧
    (∀ S r, (IsConnectionDisallowed S freshNode 6
        ⟨51, plainType PC_Struct (some "LinearColor")⟩ r).map Prod.fst
      = some (true, Error_InvalidArgumentType)) := by
  refine ⟨by decide, by decide, ?_, ?_⟩
  · intro S r
    rw [IsConnectionDisallowed_eq S freshNode 3 1
      ⟨1, PN_Execute, EGPD_Input, plainType PC_Exec none, "", "", [], false⟩ _ r
      (by decide) (by decide) (by decide) rfl]
    rfl
  · intro S r
    rw [IsConnectionDisallowed_eq S freshNode 3 6
      ⟨6, ⟨"Text Color"⟩, EGPD_Input, plainType PC_Struct (some "LinearColor"),
        LinearColorDefault, LinearColorDefault, [], true⟩ _ r
      (by decide) (by decide) (by decide) rfl]
    rfl

/-! ## Reconstruction matching -/

/-- C10: on a node whose schema is a K2 schema, pins of equal (case-sensitive) name match by
name exactly when the new pin is the self pin or the old and new types are compatible, and do
not match otherwise; pins of different names get the redirect lookup's result when the lookup
ran, found a redirect and its target name equals the new pin's name, and no match in every
other case. -/
theorem DoPinsMatchForReconstruction_rule (H : FReconstructionHost) (n : Node)
    (NewPin OldPin : UEdGraphPin) (i j : Int) (hs : n.Schema = some ESchemaClass.K2) :
    (NewPin.PinName.ToString = OldPin.PinName.ToString →
      DoPinsMatchForReconstruction H n NewPin i OldPin j =
        if H.IsSelfPin NewPin = true ∨ H.ArePinTypesCompatible OldPin.PinType NewPin.PinType = true
        then ERedirectType_Name else ERedirectType_None) ∧
    (NewPin.PinName.ToString ≠ OldPin.PinName.ToString →
      DoPinsMatchForReconstruction H n NewPin i OldPin j =
        if H.OwningNodeIsK2 NewPin = true
            ∧ (H.ShouldRedirectParam (H.GetRedirectPinNames OldPin)).1 ≠ ERedirectType_None
            ∧ (H.ShouldRedirectParam (H.GetRedirectPinNames OldPin)).2.ToString
                = NewPin.PinName.ToString
        then (H.ShouldRedirectParam (H.GetRedirectPinNames OldPin)).1
        else ERedirectType_None) := by
  constructor
  · intro hn
    unfold DoPinsMatchForReconstruction
    rw [if_pos hn, hs]
    simp
  · intro hn
    unfold DoPinsMatchForReconstruction
    rw [if_neg hn]
    by_cases hk : H.OwningNodeIsK2 NewPin = true
    · by_cases hr : (H.ShouldRedirectParam (H.GetRedirectPinNames OldPin)).1 = ERedirectType_None
      · simp [hk, hr]
      · by_cases ht : (H.ShouldRedirectParam (H.GetRedirectPinNames OldPin)).2.ToString
            = NewPin.PinName.ToString
        · simp [hk, hr, ht]
        · have ht' : ¬ NewPin.PinName.ToString
              = (H.ShouldRedirectParam (H.GetRedirectPinNames OldPin)).2.ToString :=
            fun h => ht h.symm
          simp [hk, hr, ht, ht']
    · simp [hk]

/-- C10 at a concrete pair: on a K2 node, two wildcard pins named `0` match by name; an old
pin `Old` matches the new pin `0` through the redirect table; an old pin `Other` does not. -/
theorem DoPinsMatchForReconstruction_rule_witness :
    linkedNode.Schema = some ESchemaClass.K2 ∧
    DoPinsMatchForReconstruction sampleHost linkedNode
      ⟨4, ⟨"0"⟩, EGPD_Input, WildcardPinType, "", "", [], false⟩ 3
      ⟨9, ⟨"0"⟩, EGPD_Input, WildcardPinType, "", "", [], false⟩ 3 = ERedirectType_Name ∧
    DoPinsMatchForReconstruction sampleHost linkedNode
      ⟨4, ⟨"0"⟩, EGPD_Input, WildcardPinType, "", "", [], false⟩ 3
      ⟨9, ⟨"Old"⟩, EGPD_Input, WildcardPinType, "", "", [], false⟩ 3 = ERedirectType_Name ∧
    DoPinsMatchForReconstruction sampleHost linkedNode
      ⟨4, ⟨"0"⟩, EGPD_Input, WildcardPinType, "", "", [], false⟩ 3
      ⟨9, ⟨"Other"⟩, EGPD_Input, WildcardPinType, "", "", [], false⟩ 3 = ERedirectType_None :=
  ⟨by decide,
   ((DoPinsMatchForReconstruction_rule sampleHost linkedNode
      ⟨4, ⟨"0"⟩, EGPD_Input, WildcardPinType, "", "", [], false⟩
      ⟨9, ⟨"0"⟩, EGPD_Input, WildcardPinType, "", "", [], false⟩ 3 3 (by decide)).1 rfl).trans
    (by decide),
   by decide, by decide⟩

/-! ## The fixed pins under a format edit and under type synchronisation -/

/-- C2: the second loop of `PinDefaultValueChanged` destroys the fixed input pins: on a freshly
allocated node (format literal "Hello", no placeholders) the call with the format pin leaves
only the execution-output pin and the format pin. -/
theorem PinDefaultValueChanged_destroys_fixed_pins :
    freshNode.Pins.map (fun p => p.PinName.ToString)
      = ["execute", "then", "In String", "Print to Screen", "Print to Log", "Text Color",
         "Duration"] ∧
    (FormatPinOf freshNode).map (fun p => (p.Addr, p.DefaultValue, p.LinkedTo))
      = some (3, "Hello", []) ∧
    (PinDefaultValueChanged GetFormatArgumentNames freshNode 3).map
      (fun n => n.Pins.map (fun p => p.PinName.ToString)) = some ["then", "In String"] := by
  decide

/-- C6: `PostReconstructNode` retypes the fixed input pins: on a freshly allocated live node,
whose fixed pins have no links, the execution-input pin, both option pins, the colour pin and
the duration pin all come out with the wildcard category. -/
theorem PostReconstructNode_retypes_fixed_pins :
    freshNode.bIsTemplate = false ∧
    freshNode.Pins.map (fun p => (p.PinName.ToString, p.PinType.PinCategory, p.LinkedTo))
      = [("execute", PC_Exec, []), ("then", PC_Exec, []), ("In String", PC_String, []),
         ("Print to Screen", PC_Boolean, []), ("Print to Log", PC_Boolean, []),
         ("Text Color", PC_Struct, []), ("Duration", PC_Float, [])] ∧
    (PostReconstructNode freshNode).map
      (fun n => n.Pins.map (fun p => (p.PinName.ToString, p.PinType.PinCategory)))
      = some [("execute", PC_Wildcard), ("then", PC_Exec), ("In String", PC_String),
              ("Print to Screen", PC_Wildcard), ("Print to Log", PC_Wildcard),
              ("Text Color", PC_Wildcard), ("Duration", PC_Wildcard)] := by
  decide

/-! ## The format edit -/

theorem findTest_eq (f : PinAddr) (s : String) (p : UEdGraphPin) :
    (p.Addr != f && p.Direction != EGPD_Output && p.PinName.ToString == s)
      = (isArgumentPin f p && p.PinName.ToString == s) := by
  have h1 : (EGPD_Input != EGPD_Output) = true := by decide
  have h2 : (EGPD_Output != EGPD_Output) = false := by decide
  have h3 : (EGPD_Output == EGPD_Input) = false := by decide
  unfold isArgumentPin
  cases p.Direction <;> simp [h1, h2, h3]

theorem FindArgumentPin_cached {n : Node} {f : PinAddr} (h : n.CachedFormatPin = some f)
    (nm : FName) :
    FindArgumentPin n nm
      = some (n.Pins.find? (fun p => isArgumentPin f p && p.PinName.ToString == nm.ToString), n) := by
  unfold FindArgumentPin
  rw [GetFormatPin_cached h]
  simp only [findTest_eq]

theorem find_none_iff (f : PinAddr) (pins : List UEdGraphPin) (s : String) :
    pins.find? (fun p => isArgumentPin f p && p.PinName.ToString == s) = none
      ↔ ¬ hasArgumentPin f pins s := by
  rw [List.find?_eq_none]
  unfold hasArgumentPin
  constructor
  · rintro h ⟨p, hp, h1, h2⟩
    exact h p hp (by simp [h1, h2])
  · intro h p hp hc
    simp only [Bool.and_eq_true, beq_iff_eq] at hc
    exact h ⟨p, hp, hc.1, hc.2⟩

theorem hasArgumentPin_append (f : PinAddr) (l1 l2 : List UEdGraphPin) (s : String) :
    hasArgumentPin f (l1 ++ l2) s ↔ hasArgumentPin f l1 s ∨ hasArgumentPin f l2 s := by
  unfold hasArgumentPin
  constructor
  · rintro ⟨p, hp, h⟩
    rcases List.mem_append.mp hp with hp | hp
    · exact Or.inl ⟨p, hp, h⟩
    · exact Or.inr ⟨p, hp, h⟩
  · rintro (⟨p, hp, h⟩ | ⟨p, hp, h⟩)
    · exact ⟨p, List.mem_append_left _ hp, h⟩
    · exact ⟨p, List.mem_append_right _ hp, h⟩

theorem createArgumentPins_spec (f : PinAddr) :
    ∀ (params : List String) (n : Node), n.CachedFormatPin = some f →
      (∃ q ∈ n.Pins, q.Addr = f) →
      ∃ created, createArgumentPins params n
          = some { n with Pins := n.Pins ++ created,
                          PinNames := n.PinNames ++ params.map FName.mk }
        ∧ NewArgumentPins f n.Pins params created
  | [], n, _, _ => by
    refine ⟨[], ?_, ?_, ?_, ?_⟩
    · simp [createArgumentPins]
    · intro p hp; cases hp
    · simp
    · intro s; simp
  | P :: rest, n, hc, hq => by
    unfold createArgumentPins
    dsimp only
    rw [FindArgumentPin_cached hc]
    cases hfind : n.Pins.find? (fun p => isArgumentPin f p && p.PinName.ToString == P) with
    | some x =>
      have hhas : hasArgumentPin f n.Pins P := by
        by_contra hno
        rw [(find_none_iff f n.Pins P).mpr hno] at hfind
        cases hfind
      obtain ⟨created, heq, h1, h2, h3⟩ :=
        createArgumentPins_spec f rest { n with PinNames := n.PinNames ++ [⟨P⟩] } hc hq
      refine ⟨created, ?_, h1, h2, ?_⟩
      · simp only [hfind, Option.isNone_some, Bool.false_eq_true, if_false]
        rw [heq]
        simp [List.append_assoc]
      · intro s
        rw [h3 s]
        constructor
        · rintro ⟨hs, hn⟩
          exact ⟨List.mem_cons_of_mem _ hs, hn⟩
        · rintro ⟨hs, hn⟩
          rcases List.mem_cons.mp hs with rfl | hs
          · exact absurd hhas hn
          · exact ⟨hs, hn⟩
    | none =>
      have hno : ¬ hasArgumentPin f n.Pins P := (find_none_iff f n.Pins P).mp hfind
      obtain ⟨q, hqm, hqa⟩ := hq
      have hfresh : freshAddr n.Pins ≠ f := by
        intro h
        have hlt := addr_lt_freshAddr hqm
        rw [h, hqa] at hlt
        exact lt_irrefl _ hlt
      have hc' : ({ (CreatePin n EGPD_Input PC_Wildcard none ⟨P⟩).2 with
          PinNames := (CreatePin n EGPD_Input PC_Wildcard none ⟨P⟩).2.PinNames ++ [⟨P⟩] } : Node).CachedFormatPin
            = some f := hc
      obtain ⟨created, heq, h1, h2, h3⟩ :=
        createArgumentPins_spec f rest _ hc' ⟨q, by simp [CreatePin, hqm], hqa⟩
      have hnew : ∀ s, hasArgumentPin f
          (n.Pins ++ [(⟨freshAddr n.Pins, ⟨P⟩, EGPD_Input, WildcardPinType, "", "", [], false⟩ : UEdGraphPin)]) s
            ↔ hasArgumentPin f n.Pins s ∨ s = P := by
        intro s
        rw [hasArgumentPin_append]
        constructor
        · rintro (h | ⟨p, hp, _, hpn⟩)
          · exact Or.inl h
          · rw [List.mem_singleton] at hp
            subst hp
            exact Or.inr hpn.symm
        · rintro (h | rfl)
          · exact Or.inl h
          · exact Or.inr ⟨_, List.mem_singleton.mpr rfl, by simp [isArgumentPin, hfresh], rfl⟩
      refine ⟨⟨freshAddr n.Pins, ⟨P⟩, EGPD_Input, WildcardPinType, "", "", [], false⟩ :: created,
        ?_, ?_, ?_, ?_⟩
      · simp only [hfind, Option.isNone_none, if_true]
        rw [heq]
        simp [CreatePin, WildcardPinType, List.append_assoc]
      · intro p hp
        rcases List.mem_cons.mp hp with rfl | hp
        · exact ⟨rfl, rfl, rfl, fun q hq => addr_lt_freshAddr hq⟩
        · obtain ⟨a1, a2, a3, a4⟩ := h1 p hp
          exact ⟨a1, a2, a3, fun q hq => a4 q (by simp [CreatePin, hq])⟩
      · rw [List.map_cons, List.nodup_cons]
        refine ⟨?_, h2⟩
        intro hmem
        have := ((h3 P).mp hmem).2
        exact this ((hnew P).mpr (Or.inr rfl))
      · intro s
        rw [List.map_cons, List.mem_cons, h3 s]
        have hn := hnew s
        constructor
        · rintro (rfl | ⟨hs, hns⟩)
          · exact ⟨List.mem_cons_self _ _, hno⟩
          · exact ⟨List.mem_cons_of_mem _ hs, fun h => hns (hn.mpr (Or.inl h))⟩
        · rintro ⟨hs, hns⟩
          by_cases hsP : s = P
          · exact Or.inl hsP
          · rcases List.mem_cons.mp hs with h | h
            · exact absurd h hsP
            · refine Or.inr ⟨h, fun hh => ?_⟩
              rcases hn.mp hh with h' | h'
              · exact hns h'
              · exact hsP h'

theorem any_beq_eq (params : List String) (x : String) :
    params.any (fun s => s == x) = decide (x ∈ params) := by
  induction params with
  | nil => simp
  | cons a l ih =>
    simp only [List.any_cons, ih, List.mem_cons]
    by_cases h : a = x
    · simp [h]
    · have h' : ¬ x = a := fun e => h e.symm
      simp [h, h']

theorem not_isDestroyed_eq (f : PinAddr) (params : List String) (p : UEdGraphPin) :
    (!isDestroyed f params p)
      = (!isArgumentPin f p || decide (p.PinName.ToString ∈ params)) := by
  unfold isDestroyed isArgumentPin
  rw [any_beq_eq]
  cases (p.Addr != f) <;> cases (p.Direction == EGPD_Input)
    <;> cases decide (p.PinName.ToString ∈ params) <;> rfl

theorem FormatPinOf_some {n : Node} {fp : UEdGraphPin} (h : FormatPinOf n = some fp) :
    GetFormatPin n = some (fp.Addr, { n with CachedFormatPin := some fp.Addr })
      ∧ deref n fp.Addr = some fp := by
  unfold FormatPinOf at h
  cases hg : GetFormatPin n with
  | none => rw [hg] at h; cases h
  | some r =>
    obtain ⟨a, n1⟩ := r
    rw [hg] at h
    dsimp only at h
    have h1 := GetFormatPin_eq hg
    subst h1
    rw [deref_cache] at h
    have ha := (deref_addr h).1
    subst ha
    exact ⟨rfl, h⟩

/-- The node `PinDefaultValueChanged` returns for an unlinked format pin: the roster is the
parsed list, the pins are the old pins that are not destroyed followed by the created ones. -/
theorem PinDefaultValueChanged_eq (parse : String → List String) (n : Node) (fp : UEdGraphPin)
    (hfp : FormatPinOf n = some fp) (hl : fp.LinkedTo = []) :
    ∃ created, PinDefaultValueChanged parse n fp.Addr
        = some { n with
            CachedFormatPin := some fp.Addr
            PinNames := (parse fp.DefaultValue).map FName.mk
            Pins := n.Pins.filter (fun p => !isArgumentPin fp.Addr p
                      || decide (p.PinName.ToString ∈ parse fp.DefaultValue)) ++ created }
      ∧ NewArgumentPins fp.Addr n.Pins (parse fp.DefaultValue) created := by
  obtain ⟨hg, hd⟩ := FormatPinOf_some hfp
  obtain ⟨created, heq, hnew⟩ := createArgumentPins_spec fp.Addr (parse fp.DefaultValue)
    { n with CachedFormatPin := some fp.Addr, PinNames := [] } rfl
    ⟨fp, (deref_addr hd).2, rfl⟩
  refine ⟨created, ?_, hnew⟩
  unfold PinDefaultValueChanged
  rw [hg]
  dsimp only
  rw [if_pos rfl, deref_cache, hd]
  dsimp only
  rw [if_pos (by rw [hl]; rfl), heq]
  dsimp only
  have hkeep : created.filter (fun p => !isDestroyed fp.Addr (parse fp.DefaultValue) p) = created := by
    rw [List.filter_eq_self]
    intro p hp
    have hmem : p.PinName.ToString ∈ parse fp.DefaultValue :=
      ((hnew.2.2 _).mp (List.mem_map_of_mem _ hp)).1
    rw [not_isDestroyed_eq]
    simp [hmem]
  rw [List.filter_append, hkeep]
  simp only [not_isDestroyed_eq, List.nil_append]

/-- C1: when the format pin has no links, `PinDefaultValueChanged` called with the format pin
returns a node whose roster is, in order and with nothing else, the list of names the parser
returns for the pin's literal, whatever the roster held before; so an empty parse leaves an
empty roster. -/
theorem PinDefaultValueChanged_roster (parse : String → List String) (n : Node)
    (fp : UEdGraphPin) (hfp : FormatPinOf n = some fp) (hl : fp.LinkedTo = []) :
    ∃ n', PinDefaultValueChanged parse n fp.Addr = some n'
      ∧ n'.PinNames = (parse fp.DefaultValue).map FName.mk
      ∧ (parse fp.DefaultValue = [] → n'.PinNames = []) := by
  obtain ⟨created, heq, _⟩ := PinDefaultValueChanged_eq parse n fp hfp hl
  exact ⟨_, heq, rfl, fun h => by simp [h]⟩

/-- C1 at a concrete node: with roster 0, 1 and the literal "Hi {0}" the roster becomes 0. -/
theorem PinDefaultValueChanged_roster_witness :
    (PinDefaultValueChanged GetFormatArgumentNames editedNode 3).map (fun n => n.PinNames)
      = some [⟨"0"⟩] ∧
    ∃ n', PinDefaultValueChanged GetFormatArgumentNames editedNode (formatPinWith "Hi {0}").Addr
        = some n'
      ∧ n'.PinNames = (GetFormatArgumentNames (formatPinWith "Hi {0}").DefaultValue).map FName.mk
      ∧ (GetFormatArgumentNames (formatPinWith "Hi {0}").DefaultValue = [] → n'.PinNames = []) :=
  ⟨by decide, PinDefaultValueChanged_roster GetFormatArgumentNames editedNode
    (formatPinWith "Hi {0}") (by decide) rfl⟩

theorem filter_length_le_one (l : List UEdGraphPin) (q : UEdGraphPin → Bool) (s : String)
    (hnd : (l.map (fun p => p.PinName.ToString)).Nodup)
    (hq : ∀ p, q p = true → p.PinName.ToString = s) : (l.filter q).length ≤ 1 := by
  have hsub : ((l.filter q).map (fun p => p.PinName.ToString)).Nodup :=
    ((List.filter_sublist l).map _).nodup hnd
  have hall : ∀ p ∈ l.filter q, p.PinName.ToString = s :=
    fun p hp => hq p (List.mem_filter.mp hp).2
  match hL : l.filter q with
  | [] => simp
  | [_] => simp
  | a :: b :: t =>
    rw [hL] at hsub hall
    have ha := hall a (by simp)
    have hb := hall b (by simp)
    simp only [List.map_cons, List.nodup_cons, List.mem_cons] at hsub
    exact absurd (Or.inl (ha.trans hb.symm)) hsub.1

theorem argumentPinsNamed_append (f : PinAddr) (l1 l2 : List UEdGraphPin) (s : String) :
    argumentPinsNamed f (l1 ++ l2) s = argumentPinsNamed f l1 s ++ argumentPinsNamed f l2 s := by
  unfold argumentPinsNamed
  rw [List.filter_append]

theorem argumentPinsNamed_eq_nil (f : PinAddr) (l : List UEdGraphPin) (s : String) :
    argumentPinsNamed f l s = [] ↔ ¬ hasArgumentPin f l s := by
  unfold argumentPinsNamed
  rw [← find_none_iff, List.find?_eq_none, List.filter_eq_nil_iff]

/-- C3: when the format pin has no links and the node's input pins have pairwise different
names, then for any parsed list (duplicate-free or not) `PinDefaultValueChanged` called with
the format pin returns a node whose roster is the parsed list and in which every parsed name,
and so every roster entry, has exactly one argument pin (input pin other than the format pin)
of that exact name, every argument pin has its name among the parsed names, and so in the
roster, and every old argument pin whose name is not parsed, or not in the roster, is gone
from the pin list. -/
theorem PinDefaultValueChanged_pins_match_roster (parse : String → List String) (n : Node)
    (fp : UEdGraphPin) (hfp : FormatPinOf n = some fp) (hl : fp.LinkedTo = [])
    (hd : ((n.Pins.filter (fun p => p.Direction == EGPD_Input)).map
            (fun p => p.PinName.ToString)).Nodup) :
    ∃ n', PinDefaultValueChanged parse n fp.Addr = some n'
      ∧ n'.PinNames = (parse fp.DefaultValue).map FName.mk
      ∧ (∀ s ∈ parse fp.DefaultValue, (argumentPinsNamed fp.Addr n'.Pins s).length = 1)
      ∧ (∀ p ∈ n'.Pins, isArgumentPin fp.Addr p = true
          → p.PinName.ToString ∈ parse fp.DefaultValue)
      ∧ (∀ p ∈ n.Pins, isArgumentPin fp.Addr p = true
          → p.PinName.ToString ∉ parse fp.DefaultValue → p ∉ n'.Pins)
      ∧ (∀ r ∈ n'.PinNames, (argumentPinsNamed fp.Addr n'.Pins r.ToString).length = 1)
      ∧ (∀ p ∈ n'.Pins, isArgumentPin fp.Addr p = true → p.PinName ∈ n'.PinNames)
      ∧ (∀ p ∈ n.Pins, isArgumentPin fp.Addr p = true → p.PinName ∉ n'.PinNames → p ∉ n'.Pins) := by
  obtain ⟨created, heq, h1, h2, h3⟩ := PinDefaultValueChanged_eq parse n fp hfp hl
  have hfpmem : fp ∈ n.Pins := (deref_addr (FormatPinOf_some hfp).2).2
  have hcreatedArg : ∀ p ∈ created, isArgumentPin fp.Addr p = true := by
    intro p hp
    obtain ⟨a1, _, _, a4⟩ := h1 p hp
    have hne : p.Addr ≠ fp.Addr := Nat.ne_of_gt (a4 fp hfpmem)
    simp [isArgumentPin, a1, hne]
  have hparsedName : ∀ p ∈ n.Pins.filter (fun p => !isArgumentPin fp.Addr p
        || decide (p.PinName.ToString ∈ parse fp.DefaultValue)) ++ created,
      isArgumentPin fp.Addr p = true → p.PinName.ToString ∈ parse fp.DefaultValue := by
    intro p hp harg
    rcases List.mem_append.mp hp with hp | hp
    · have := (List.mem_filter.mp hp).2
      simpa [harg] using this
    · exact ((h3 _).mp (List.mem_map_of_mem _ hp)).1
  have hii : ∀ p ∈ n.Pins.filter (fun p => !isArgumentPin fp.Addr p
        || decide (p.PinName.ToString ∈ parse fp.DefaultValue)) ++ created,
      isArgumentPin fp.Addr p = true → p.PinName ∈ (parse fp.DefaultValue).map FName.mk :=
    fun p hp harg => List.mem_map.mpr ⟨_, hparsedName p hp harg, rfl⟩
  have hone : ∀ s ∈ parse fp.DefaultValue,
      (argumentPinsNamed fp.Addr (n.Pins.filter (fun p => !isArgumentPin fp.Addr p
        || decide (p.PinName.ToString ∈ parse fp.DefaultValue)) ++ created) s).length = 1 := by
    intro s hs
    show (argumentPinsNamed fp.Addr (n.Pins.filter (fun p => !isArgumentPin fp.Addr p
        || decide (p.PinName.ToString ∈ parse fp.DefaultValue)) ++ created) s).length = 1
    rw [argumentPinsNamed_append, List.length_append]
    have hold : argumentPinsNamed fp.Addr (n.Pins.filter (fun p => !isArgumentPin fp.Addr p
        || decide (p.PinName.ToString ∈ parse fp.DefaultValue))) s
          = argumentPinsNamed fp.Addr n.Pins s := by
      unfold argumentPinsNamed
      rw [List.filter_filter]
      apply List.filter_congr
      intro p _
      by_cases hp : p.PinName.ToString = s
      · subst hp
        simp [hs]
      · simp [hp]
    have hle : (argumentPinsNamed fp.Addr n.Pins s).length ≤ 1 := by
      have hrewrite : argumentPinsNamed fp.Addr n.Pins s
          = (n.Pins.filter (fun p => p.Direction == EGPD_Input)).filter
              (fun p => p.Addr != fp.Addr && p.PinName.ToString == s) := by
        unfold argumentPinsNamed isArgumentPin
        rw [List.filter_filter]
        apply List.filter_congr
        intro p _
        cases (p.Addr != fp.Addr) <;> cases (p.Direction == EGPD_Input)
          <;> cases (p.PinName.ToString == s) <;> rfl
      rw [hrewrite]
      apply filter_length_le_one _ _ s hd
      intro p hp
      simp only [Bool.and_eq_true, beq_iff_eq] at hp
      exact hp.2
    have hcle : (argumentPinsNamed fp.Addr created s).length ≤ 1 := by
      unfold argumentPinsNamed
      apply filter_length_le_one _ _ s h2
      intro p hp
      simp only [Bool.and_eq_true, beq_iff_eq] at hp
      exact hp.2
    rw [hold]
    by_cases hhas : hasArgumentPin fp.Addr n.Pins s
    · have hnil : argumentPinsNamed fp.Addr created s = [] := by
        rw [argumentPinsNamed_eq_nil]
        rintro ⟨p, hp, _, hpn⟩
        exact ((h3 s).mp (List.mem_map.mpr ⟨p, hp, hpn⟩)).2 hhas
      have hne : argumentPinsNamed fp.Addr n.Pins s ≠ [] :=
        fun h => (argumentPinsNamed_eq_nil _ _ _).mp h hhas
      have hpos := List.length_pos.mpr hne
      rw [hnil, List.length_nil]
      omega
    · have hnil := (argumentPinsNamed_eq_nil fp.Addr n.Pins s).mpr hhas
      obtain ⟨p, hp, hpn⟩ := List.mem_map.mp ((h3 s).mpr ⟨hs, hhas⟩)
      have hne : argumentPinsNamed fp.Addr created s ≠ [] := by
        intro h
        exact (argumentPinsNamed_eq_nil _ _ _).mp h ⟨p, hp, hcreatedArg p hp, hpn⟩
      have hpos := List.length_pos.mpr hne
      rw [hnil, List.length_nil]
      omega
  refine ⟨_, heq, rfl, hone, hparsedName, ?_, ?_, hii, ?_⟩
  · intro p _ harg hnot hmem
    exact hnot (hparsedName p hmem harg)
  · intro r hr
    obtain ⟨s, hs, rfl⟩ := List.mem_map.mp hr
    exact hone s hs
  · intro p _ harg hnot hmem
    exact hnot (hii p hmem harg)

/-- C3 at concrete nodes: with pins 0 and 1 and the literal "Hi {0}", pin 1 is removed and
pin 0 stays; on a node without argument pins the literal "Hi {0}" creates pin 0. -/
theorem PinDefaultValueChanged_pins_match_roster_witness :
    (PinDefaultValueChanged GetFormatArgumentNames editedNode 3).map
        (fun n => (n.PinNames, n.Pins.map (fun p => (p.Addr, p.PinName.ToString))))
      = some ([⟨"0"⟩], [(2, "then"), (3, "In String"), (4, "0")]) ∧
    (PinDefaultValueChanged GetFormatArgumentNames (setDefaultValue freshNode 3 "Hi {0}") 3).map
        (fun n => (n.PinNames, n.Pins.map (fun p => (p.Addr, p.PinName.ToString))))
      = some ([⟨"0"⟩], [(2, "then"), (3, "In String"), (8, "0")]) ∧
    ∃ n', PinDefaultValueChanged GetFormatArgumentNames editedNode (formatPinWith "Hi {0}").Addr
        = some n'
      ∧ n'.PinNames = (GetFormatArgumentNames (formatPinWith "Hi {0}").DefaultValue).map FName.mk
      ∧ (∀ s ∈ GetFormatArgumentNames (formatPinWith "Hi {0}").DefaultValue,
          (argumentPinsNamed (formatPinWith "Hi {0}").Addr n'.Pins s).length = 1)
      ∧ (∀ p ∈ n'.Pins, isArgumentPin (formatPinWith "Hi {0}").Addr p = true
          → p.PinName.ToString ∈ GetFormatArgumentNames (formatPinWith "Hi {0}").DefaultValue)
      ∧ (∀ p ∈ editedNode.Pins, isArgumentPin (formatPinWith "Hi {0}").Addr p = true
          → p.PinName.ToString ∉ GetFormatArgumentNames (formatPinWith "Hi {0}").DefaultValue
          → p ∉ n'.Pins)
      ∧ (∀ r ∈ n'.PinNames,
          (argumentPinsNamed (formatPinWith "Hi {0}").Addr n'.Pins r.ToString).length = 1)
      ∧ (∀ p ∈ n'.Pins, isArgumentPin (formatPinWith "Hi {0}").Addr p = true
          → p.PinName ∈ n'.PinNames)
      ∧ (∀ p ∈ editedNode.Pins, isArgumentPin (formatPinWith "Hi {0}").Addr p = true
          → p.PinName ∉ n'.PinNames → p ∉ n'.Pins) :=
  ⟨by decide, by decide,
   PinDefaultValueChanged_pins_match_roster GetFormatArgumentNames editedNode
    (formatPinWith "Hi {0}") (by decide) rfl (by decide)⟩

/-! ## Initial allocation -/

theorem freshAddr_append_singleton (l : List UEdGraphPin) (q : UEdGraphPin) :
    freshAddr (l ++ [q]) = max (freshAddr l) (q.Addr + 1) := by
  unfold freshAddr
  induction l with
  | nil => simp
  | cons a t ih =>
    simp only [List.cons_append, List.map_cons, List.foldr_cons] at ih ⊢
    have e : ∀ x y : Nat, max x y + 1 = max (x + 1) (y + 1) := fun x y => by omega
    rw [e, ih, e]
    simp only [max_assoc]

theorem freshAddr_append_fresh (l : List UEdGraphPin) (q : UEdGraphPin)
    (hq : q.Addr = freshAddr l) : freshAddr (l ++ [q]) = freshAddr l + 1 := by
  rw [freshAddr_append_singleton, hq]
  exact max_eq_right (Nat.le_succ _)

theorem map_modify_fresh (l : List UEdGraphPin) (q : UEdGraphPin)
    (g : UEdGraphPin → UEdGraphPin) (hq : q.Addr = freshAddr l) :
    (l ++ [q]).map (fun p => if p.Addr = freshAddr l then g p else p) = l ++ [g q] := by
  rw [List.map_append]
  congr 1
  · conv_rhs => rw [← List.map_id l]
    apply List.map_congr_left
    intro p hp
    have := addr_lt_freshAddr hp
    rw [if_neg (Nat.ne_of_lt this)]
    rfl
  · simp [hq]

theorem createConfigured (n : Node) (d : EEdGraphPinDirection) (c : EPinCategory)
    (o : Option String) (nm : FName) (v : String) :
    SetPinAutogeneratedDefaultValue
        (modifyPin (CreatePin n d c o nm).2 (CreatePin n d c o nm).1
          (fun p => { p with bAdvancedView := true }))
        (CreatePin n d c o nm).1 v
      = { n with Pins := n.Pins ++ [⟨freshAddr n.Pins, nm, d, plainType c o, v, v, [], true⟩] } := by
  simp only [SetPinAutogeneratedDefaultValue, modifyPin, CreatePin]
  rw [map_modify_fresh _ _ _ rfl, map_modify_fresh _ _ _ rfl]
  rfl

theorem createWildcards (roster : List FName) :
    ∀ (n : Node) (k : Nat), freshAddr n.Pins = k →
      roster.foldl (fun n PinName => (CreatePin n EGPD_Input PC_Wildcard none PinName).2) n
        = { n with Pins := n.Pins ++ (roster.enumFrom k).map wildcardPin } := by
  induction roster with
  | nil => intro n k _; simp
  | cons r rest ih =>
    intro n k hk
    rw [List.foldl_cons, ih _ (k + 1)]
    · simp [CreatePin, hk, wildcardPin, WildcardPinType, List.enumFrom_cons]
    · simp only [CreatePin]
      rw [freshAddr_append_fresh _ _ rfl, hk]

theorem freshAddr_append_wildcards (roster : List FName) :
    ∀ (l : List UEdGraphPin) (k : Nat), freshAddr l = k →
      freshAddr (l ++ (roster.enumFrom k).map wildcardPin) = k + roster.length := by
  induction roster with
  | nil => intro l k hk; simp [hk]
  | cons r rest ih =>
    intro l k hk
    have h1 : freshAddr (l ++ [wildcardPin (k, r)]) = k + 1 := by
      rw [freshAddr_append_fresh _ _ (by rw [hk]; rfl), hk]
    have := ih (l ++ [wildcardPin (k, r)]) (k + 1) h1
    simp only [List.enumFrom_cons, List.map_cons, List.length_cons]
    rw [List.append_assoc] at this
    simp only [List.singleton_append] at this
    rw [this]
    show (k + 1 + rest.length : Nat) = k + (rest.length + 1)
    omega

theorem AllocateDefaultPins_of_display (n : Node) (h : n.Pins = [])
    (hadp : n.AdvancedPinDisplay ≠ ENodeAdvancedPins.NoPins) :
    AllocateDefaultPins n
      = { n with CachedFormatPin := some 3, Pins := specifiedDefaultPins n.PinNames } := by
  obtain ⟨pins, roster, c, adp, t, s⟩ := n
  simp only at h hadp
  subst h
  unfold AllocateDefaultPins Super_AllocateDefaultPins
  dsimp only
  rw [if_neg hadp]
  simp only [createConfigured]
  have hbase : SetPinAutogeneratedDefaultValue
        { (CreatePin (CreatePin (CreatePin (⟨[], roster, c, adp, t, s⟩ : Node)
              EGPD_Input PC_Exec none PN_Execute).2
              EGPD_Output PC_Exec none PN_Then).2 EGPD_Input PC_String none ⟨"In String"⟩).2 with
          CachedFormatPin := some (CreatePin (CreatePin (CreatePin (⟨[], roster, c, adp, t, s⟩ : Node)
              EGPD_Input PC_Exec none PN_Execute).2 EGPD_Output PC_Exec none PN_Then).2
              EGPD_Input PC_String none ⟨"In String"⟩).1 }
        (CreatePin (CreatePin (CreatePin (⟨[], roster, c, adp, t, s⟩ : Node)
              EGPD_Input PC_Exec none PN_Execute).2
              EGPD_Output PC_Exec none PN_Then).2 EGPD_Input PC_String none ⟨"In String"⟩).1 "Hello"
      = (⟨[⟨1, PN_Execute, EGPD_Input, plainType PC_Exec none, "", "", [], false⟩,
           ⟨2, PN_Then, EGPD_Output, plainType PC_Exec none, "", "", [], false⟩,
           ⟨3, ⟨"In String"⟩, EGPD_Input, plainType PC_String none, "Hello", "Hello", [], false⟩],
          roster, some 3, adp, t, s⟩ : Node) := rfl
  rw [hbase]
  dsimp only
  rw [createWildcards roster _ 4 (by rfl)]
  dsimp only
  have hB := freshAddr_append_wildcards roster
    [⟨1, PN_Execute, EGPD_Input, plainType PC_Exec none, "", "", [], false⟩,
     ⟨2, PN_Then, EGPD_Output, plainType PC_Exec none, "", "", [], false⟩,
     ⟨3, ⟨"In String"⟩, EGPD_Input, plainType PC_String none, "Hello", "Hello", [], false⟩] 4 rfl
  have e1 : 4 + roster.length + 1 = 5 + roster.length := by omega
  have e2 : 5 + roster.length + 1 = 6 + roster.length := by omega
  have e3 : 6 + roster.length + 1 = 7 + roster.length := by omega
  have hm : ∀ a : Nat, max a (a + 1) = a + 1 := fun a => max_eq_right (Nat.le_succ a)
  simp only [freshAddr_append_singleton, hB, hm, e1, e2, e3]
  unfold specifiedDefaultPins
  simp only [List.append_assoc, List.singleton_append, List.cons_append, List.nil_append]
  have e4 : max (4 + roster.length) (5 + roster.length) = 5 + roster.length := by omega
  simp only [e4, e2, e3]

/-- The node `AllocateDefaultPins` returns on a node without pins. -/
theorem AllocateDefaultPins_eq (n : Node) (h : n.Pins = []) :
    AllocateDefaultPins n = { n with
      AdvancedPinDisplay :=
        if n.AdvancedPinDisplay = ENodeAdvancedPins.NoPins then ENodeAdvancedPins.Hidden
        else n.AdvancedPinDisplay
      CachedFormatPin := some 3
      Pins := specifiedDefaultPins n.PinNames } := by
  by_cases hadp : n.AdvancedPinDisplay = ENodeAdvancedPins.NoPins
  · have hstep : AllocateDefaultPins n
        = AllocateDefaultPins { n with AdvancedPinDisplay := ENodeAdvancedPins.Hidden } := by
      unfold AllocateDefaultPins Super_AllocateDefaultPins
      simp only [hadp, if_true]
      rfl
    rw [hstep, AllocateDefaultPins_of_display
      { n with AdvancedPinDisplay := ENodeAdvancedPins.Hidden } h
      (fun hh => ENodeAdvancedPins.noConfusion hh), if_pos hadp]
  · rw [AllocateDefaultPins_of_display n h hadp, if_neg hadp]

theorem map_wildcardPin_name (roster : List FName) (k : Nat) :
    ((roster.enumFrom k).map wildcardPin).map (fun p => p.PinName) = roster := by
  induction roster generalizing k with
  | nil => rfl
  | cons r rest ih => simp [List.enumFrom_cons, wildcardPin, ih]

theorem map_wildcardPin_advanced (roster : List FName) (k : Nat) :
    ((roster.enumFrom k).map wildcardPin).map (fun p => p.bAdvancedView)
      = List.replicate roster.length false := by
  induction roster generalizing k with
  | nil => rfl
  | cons r rest ih => simp [List.enumFrom_cons, wildcardPin, ih, List.replicate_succ]

/-- C9: on a node with no pins, for every roster, `AllocateDefaultPins` produces the pin list
of the specification: execution input, execution output, the string-typed format pin
`In String` with literal "Hello", one input wildcard pin per roster name in roster order, then
`Print to Screen` and `Print to Log` (boolean, "true"), `Text Color` (struct, the colour
literal) and `Duration` (float, "2.0"); there are seven pins plus the roster length, exactly
the last four are advanced, the roster is unchanged and the cached format pin is
`In String`. -/
theorem AllocateDefaultPins_pins (n : Node) (h : n.Pins = []) :
    (AllocateDefaultPins n).Pins = specifiedDefaultPins n.PinNames
    ∧ (((AllocateDefaultPins n).Pins.drop 3).take n.PinNames.length).map (fun p => p.PinName)
        = n.PinNames
    ∧ (AllocateDefaultPins n).Pins.length = 7 + n.PinNames.length
    ∧ (AllocateDefaultPins n).Pins.map (fun p => p.bAdvancedView)
        = List.replicate (3 + n.PinNames.length) false ++ List.replicate 4 true
    ∧ (AllocateDefaultPins n).PinNames = n.PinNames
    ∧ (AllocateDefaultPins n).CachedFormatPin = some 3
    ∧ deref (AllocateDefaultPins n) 3
        = some ⟨3, ⟨"In String"⟩, EGPD_Input, plainType PC_String none, "Hello", "Hello", [], false⟩ := by
  rw [AllocateDefaultPins_eq n h]
  refine ⟨rfl, ?_, ?_, ?_, rfl, rfl, rfl⟩
  · show (((specifiedDefaultPins n.PinNames).drop 3).take n.PinNames.length).map
      (fun p => p.PinName) = n.PinNames
    unfold specifiedDefaultPins
    have hlen : n.PinNames.length = ((n.PinNames.enumFrom 4).map wildcardPin).length := by simp
    simp only [List.cons_append, List.nil_append, List.drop_succ_cons, List.drop_zero]
    rw [hlen, List.take_left', map_wildcardPin_name]
    rfl
  · show (specifiedDefaultPins n.PinNames).length = 7 + n.PinNames.length
    simp [specifiedDefaultPins]
    omega
  · show (specifiedDefaultPins n.PinNames).map (fun p => p.bAdvancedView) = _
    unfold specifiedDefaultPins
    rw [List.map_append, List.map_append, map_wildcardPin_advanced, List.replicate_add]
    rfl

/-- C9 at a concrete node: the roster 0, 1 gives nine pins. -/
theorem AllocateDefaultPins_pins_witness :
    (AllocateDefaultPins (emptyNode [⟨"0"⟩, ⟨"1"⟩])).Pins.map (fun p => (p.Addr, p.PinName.ToString))
      = [(1, "execute"), (2, "then"), (3, "In String"), (4, "0"), (5, "1"),
         (6, "Print to Screen"), (7, "Print to Log"), (8, "Text Color"), (9, "Duration")] ∧
    (AllocateDefaultPins (emptyNode [⟨"0"⟩, ⟨"1"⟩])).Pins
        = specifiedDefaultPins (emptyNode [⟨"0"⟩, ⟨"1"⟩]).PinNames
    ∧ (((AllocateDefaultPins (emptyNode [⟨"0"⟩, ⟨"1"⟩])).Pins.drop 3).take
          (emptyNode [⟨"0"⟩, ⟨"1"⟩]).PinNames.length).map (fun p => p.PinName)
        = (emptyNode [⟨"0"⟩, ⟨"1"⟩]).PinNames
    ∧ (AllocateDefaultPins (emptyNode [⟨"0"⟩, ⟨"1"⟩])).Pins.length
        = 7 + (emptyNode [⟨"0"⟩, ⟨"1"⟩]).PinNames.length
    ∧ (AllocateDefaultPins (emptyNode [⟨"0"⟩, ⟨"1"⟩])).Pins.map (fun p => p.bAdvancedView)
        = List.replicate (3 + (emptyNode [⟨"0"⟩, ⟨"1"⟩]).PinNames.length) false
            ++ List.replicate 4 true
    ∧ (AllocateDefaultPins (emptyNode [⟨"0"⟩, ⟨"1"⟩])).PinNames
        = (emptyNode [⟨"0"⟩, ⟨"1"⟩]).PinNames
    ∧ (AllocateDefaultPins (emptyNode [⟨"0"⟩, ⟨"1"⟩])).CachedFormatPin = some 3
    ∧ deref (AllocateDefaultPins (emptyNode [⟨"0"⟩, ⟨"1"⟩])) 3
        = some ⟨3, ⟨"In String"⟩, EGPD_Input, plainType PC_String none, "Hello", "Hello", [], false⟩ :=
  ⟨by decide, AllocateDefaultPins_pins (emptyNode [⟨"0"⟩, ⟨"1"⟩]) rfl⟩

end SiriusStringUtils
